import Mathlib

/-!
Verification of the tag-finder engine (src/tagsfinder.js) and the
document loader (src/dataloader.js) of jpdelima/node-tags-finder,
as a shallow embedding in Lean.

Modelling conventions:
* JSON values are the mutual inductive `JSVal` / `JSList` / `JSFields`
  (mutual rather than nested so that structural recursion and induction
  over documents stay simple).
* JS dictionaries (`this.cache`, `tmpResults`) are modelled as
  prototype-free association lists `List (String × Nat)`; `lookup` reads
  the first matching key and `setT` updates the first matching key, which
  agrees with JS property semantics for plain string keys.  Properties
  inherited from `Object.prototype` (e.g. a tag literally named
  "toString") are outside the model.
* JS numbers reached by this code are non-negative integers (counters
  incremented from 0), modelled as `Nat`.
* Thrown `Error`s are modelled as `Except TFError`; the two distinct
  error messages of tagsfinder.js become the two constructors.
-/

/-! ## JSON values (documents) -/

mutual

/-- A JSON value as produced by `JSON.parse`: string, number, boolean,
null, array, or object. -/
inductive JSVal : Type where
  | str : String → JSVal
  | num : Int → JSVal
  | bool : Bool → JSVal
  | null : JSVal
  | arr : JSList → JSVal
  | obj : JSFields → JSVal

/-- Elements of a JSON array, in order. -/
inductive JSList : Type where
  | nil : JSList
  | cons : JSVal → JSList → JSList

/-- Own enumerable fields of a JSON object, in insertion order. -/
inductive JSFields : Type where
  | nil : JSFields
  | fcons : String → JSVal → JSFields → JSFields

end

/-- Convert a `JSList` to a Lean list of values. -/
def JSList.toList : JSList → List JSVal
  | .nil => []
  | .cons v rest => v :: JSList.toList rest

/-! ## String containment: `s.indexOf(t) > -1` -/

/-- Char-list version of `s.indexOf(t) > -1`: `t` occurs as a contiguous
sublist of `s` (the empty pattern occurs in every string, as in JS where
`s.indexOf("")` is `0`). -/
def hasSubstr : List Char → List Char → Bool
  | [], t => List.isPrefixOf t []
  | c :: rest, t => List.isPrefixOf t (c :: rest) || hasSubstr rest t

/-- `s.indexOf(t) > -1` of tagsfinder.js line 81. -/
def strIncludes (s t : String) : Bool :=
  hasSubstr s.data t.data

/-! ## Counter dictionaries (`tmpResults` and `this.cache`) -/

/-- A JS dictionary from tag to counter: `tmpResults` and `this.cache`. -/
abbrev Counts := List (String × Nat)

/-- Read `m[t]`, defaulting a missing key to 0 (used where the code has
initialised the key before reading it). -/
def getT (m : Counts) (t : String) : Nat :=
  (List.lookup t m).getD 0

/-- `m[t] += 1` for a key that is present (the code only increments keys
it initialised; an absent key is left untouched). -/
def bumpT : Counts → String → Counts
  | [], _ => []
  | (k, n) :: rest, t => if k = t then (k, n + 1) :: rest else (k, n) :: bumpT rest t

/-- `m[t] = n`: update the existing key, or append a fresh one. -/
def setT : Counts → String → Nat → Counts
  | [], t, n => [(t, n)]
  | (k, m) :: rest, t, n => if k = t then (k, n) :: rest else (k, m) :: setT rest t n

/-- The keys of a dictionary. -/
def keysOf (m : Counts) : List String :=
  m.map Prod.fst

/-! ## The traversal of `_processObject` (tagsfinder.js lines 70–88) -/

/-- The inner loop of the string branch (lines 79–85): for each tag,
if the leaf contains it, increment that tag's counter by one. -/
def bumpMatches (tags : List String) (s : String) (res : Counts) : Counts :=
  tags.foldl (fun r t => if strIncludes s t then bumpT r t else r) res

mutual

/-- Dispatch on one value met during the for-in loop of `_processObject`
(lines 73–85).  A value of JS `typeof` `'object'` — object, array, or
`null` — is recursed into by `_processObject` (the `Array.isArray` branch
at line 75 is dead code, since arrays already have `typeof` `'object'`;
for-in over an array enumerates its elements, and for-in over `null`
enumerates nothing).  A string value is a leaf that is tested against
every tag.  Numbers and booleans are skipped. -/
def processEntry (tags : List String) : JSVal → Counts → Counts
  | .str s, res => bumpMatches tags s res
  | .obj kvs, res => processFields tags kvs res
  | .arr xs, res => processElems tags xs res
  | .num _, res => res
  | .bool _, res => res
  | .null, res => res

/-- for-in over a JS object: its own enumerable fields in order. -/
def processFields (tags : List String) : JSFields → Counts → Counts
  | .nil, res => res
  | .fcons _ v rest, res => processFields tags rest (processEntry tags v res)

/-- for-in over a JS array: its elements in index order. -/
def processElems (tags : List String) : JSList → Counts → Counts
  | .nil, res => res
  | .cons v rest, res => processElems tags rest (processEntry tags v res)

end

/-- for-in over a boxed string enumerates its index properties, whose
values are one-character strings; each of those is a string value and is
tested against every tag. -/
def processStrChars (tags : List String) : List Char → Counts → Counts
  | [], res => res
  | c :: rest, res => processStrChars tags rest (bumpMatches tags (String.singleton c) res)

/-- `_processObject(tags, v, results)` (lines 70–88): a for-in loop over
`v`.  On an object it enumerates the fields, on an array the elements,
on a string its characters (as one-character strings), and on any other
primitive nothing. -/
def processObject (tags : List String) : JSVal → Counts → Counts
  | .obj kvs, res => processFields tags kvs res
  | .arr xs, res => processElems tags xs res
  | .str s, res => processStrChars tags s.data res
  | .num _, res => res
  | .bool _, res => res
  | .null, res => res

/-! ## The sort at line 65

`results.sort(function(a, b) { return a.count < b.count; })` hands
`Array.prototype.sort` a comparator that returns a boolean.  Per the
ECMAScript `SortCompare` steps the returned value goes through
`ToNumber`, giving 1 when `a.count < b.count` and 0 otherwise — never a
negative number.  V8 (Node ≥ 11) sorts with TimSort, whose element moves
are all guarded by `comparator result < 0` checks; for result lengths
below 64 the whole array goes through one binary-insertion pass.  We
model that binary-insertion pass (with the coerced comparator) and prove
below that for any comparator that is never negative it is the identity
permutation, which is exactly what V8 produces here. -/

/-- One `(tag, count)` entry of the result array of `process`. -/
structure QueryResult where
  tag : String
  count : Nat
deriving DecidableEq, Repr

/-- The comparator of line 65 after `ToNumber` coercion of its boolean
result: 1 when `a.count < b.count`, else 0. -/
def sortCompare (a b : QueryResult) : Int :=
  if a.count < b.count then 1 else 0

/-- Insert `x` at position `pos` of `l`. -/
def insertAt (l : List α) (pos : Nat) (x : α) : List α :=
  l.take pos ++ x :: l.drop pos

/-- V8's binary search for the insertion point of `pivot` in the sorted
prefix `l[left..right)`: halve the interval, descending left exactly when
the comparator is negative.  `fuel` bounds the iteration count (any fuel
at least `right - left` reaches the fixpoint). -/
def bisectFuel (cmp : α → α → Int) (pivot : α) (l : List α) (dflt : α) :
    Nat → Nat → Nat → Nat
  | 0, left, _ => left
  | fuel + 1, left, right =>
    if left < right then
      if cmp pivot (l.getD (left + (right - left) / 2) dflt) < 0 then
        bisectFuel cmp pivot l dflt fuel left (left + (right - left) / 2)
      else
        bisectFuel cmp pivot l dflt fuel (left + (right - left) / 2 + 1) right
    else left

/-- V8's binary insertion sort: insert each element into the sorted
prefix at the position found by binary search. -/
def binaryInsertionSort (cmp : α → α → Int) (dflt : α) (l : List α) : List α :=
  l.foldl (fun acc x => insertAt acc (bisectFuel cmp x acc dflt acc.length 0 acc.length) x) []

/-! ## The engine state and its operations (tagsfinder.js lines 19–91) -/

/-- The two errors thrown by tagsfinder.js:
`'TagsFinder invalid data object'` (line 28) and
`'TagsFinder process called without data set'` (line 36). -/
inductive TFError where
  | invalidInput : TFError
  | notInitialized : TFError
deriving DecidableEq, Repr

/-- The `TagsFinder` instance state: the count cache (constructor,
line 22) and the working corpus (`this.data`, set by `setData`). -/
structure TagsFinder where
  cache : Counts
  data : Option (List JSVal)

/-- The truthiness test `if(this.cache[tag])` at line 46: a hit only when
the key is present with a non-zero count (a cached 0 is falsy). -/
def cacheHit (cache : Counts) (t : String) : Option Nat :=
  match List.lookup t cache with
  | some c => if c = 0 then none else some c
  | none => none

/-- The cache-hit results pushed by the first loop (lines 45–52), in tag
order. -/
def cachedResults (cache : Counts) (tags : List String) : List QueryResult :=
  tags.filterMap (fun t => (cacheHit cache t).map (fun c => ⟨t, c⟩))

/-- The `tagsToProcess` list built by the first loop: the tags whose
cache read is falsy, in tag order. -/
def tagsToProcessOf (cache : Counts) (tags : List String) : List String :=
  tags.filter (fun t => (cacheHit cache t).isNone)

/-- `tmpResults` after the first loop: every tag to process initialised
to 0 (line 50). -/
def initTmp (tags : List String) : Counts :=
  tags.foldl (fun m t => setT m t 0) []

/-- The body of `process` (lines 34–68) once `this.data` is known to be
set: partition the tags against the cache, traverse every document for
the uncached ones, write the new counts back to the cache, and sort.
Returns the (sorted) result array, the updated cache, and — exposed so
that theorems can observe which tags triggered the corpus traversal of
lines 54–57 — the `tagsToProcess` list. -/
def processData (cache : Counts) (data : List JSVal) (tags : List String) :
    List QueryResult × Counts × List String :=
  let results₁ := cachedResults cache tags
  let ttp := tagsToProcessOf cache tags
  let tmp := data.foldl (fun r o => processObject ttp o r) (initTmp ttp)
  let cache' := ttp.foldl (fun c t => setT c t (getT tmp t)) cache
  let results₂ := ttp.map (fun t => (⟨t, getT tmp t⟩ : QueryResult))
  (binaryInsertionSort sortCompare (⟨"", 0⟩ : QueryResult) (results₁ ++ results₂),
   cache', ttp)

/-- `setData(data)` (lines 26–32): reject any argument that is not an
array (`!data || !Array.isArray(data)`), otherwise replace `this.data`.
Nothing else is touched — in particular the cache is left as it is. -/
def setData (s : TagsFinder) (v : JSVal) : Except TFError TagsFinder :=
  match v with
  | .arr docs => .ok { s with data := some docs.toList }
  | _ => .error .invalidInput

/-- `process(tags)` (lines 34–68): throw when `this.data` was never set,
otherwise run `processData` and store the updated cache. -/
def process (s : TagsFinder) (tags : List String) :
    Except TFError (List QueryResult × TagsFinder) :=
  match s.data with
  | none => .error .notInitialized
  | some d =>
    let r := processData s.cache d tags
    .ok (r.1, { s with cache := r.2.1 })

/-! ## The document loader (src/dataloader.js)

The loader is event-driven; we model it at the granularity of the two
events that drive its shared state: the safety timer firing (lines
78–80) and one `fileprocessed` notification (handler, lines 48–60).  The
per-file `error` notifications emitted by the read callbacks (lines
100–114) carry no state and are outside the claims, so they are not
modelled.  `dlInit n` is the state right after `loadFiles` has listed a
directory of `n` files and started the safety timer (lines 67–91). -/

/-- The `DataLoader` instance state: the corpus cache and readiness flag
(lines 38–39), the two completion counters (lines 44–45), and whether
the safety timer is still pending (set at line 78, cleared at line 57,
spent once it fires). -/
structure DLState where
  cache : List JSVal
  cacheReady : Bool
  filesToProcessCount : Nat
  filesProcessedCount : Nat
  timerPending : Bool

/-- An event that drives the loader: the safety timer firing, or one
`fileprocessed` notification with its success flag and parsed object. -/
inductive DLEvent where
  | timeout : DLEvent
  | fileDone : Bool → JSVal → DLEvent

/-- An externally visible emission of the loader. -/
inductive DLEmit where
  | fatal : DLEmit
  | ready : List JSVal → DLEmit

/-- One event step.  The timer firing emits `fatal` (line 79) and spends
the timer.  A `fileprocessed` event appends the object on success,
increments the processed counter, and — with no check whatsoever of
whether `fatal` already fired — emits `ready` with the accumulated
cache, clears the timer and marks the cache ready exactly when the
counter reaches the total (lines 48–60). -/
def dlStep (s : DLState) : DLEvent → DLState × List DLEmit
  | .timeout => ({ s with timerPending := false }, [.fatal])
  | .fileDone ok o =>
    let cache' := if ok then s.cache ++ [o] else s.cache
    let p := s.filesProcessedCount + 1
    if s.filesToProcessCount = p then
      ({ s with cache := cache', filesProcessedCount := p,
                timerPending := false, cacheReady := true },
       [.ready cache'])
    else
      ({ s with cache := cache', filesProcessedCount := p }, [])

/-- Run a sequence of events, collecting the emissions in order. -/
def dlRun (s : DLState) : List DLEvent → DLState × List DLEmit
  | [] => (s, [])
  | e :: rest =>
    let r := dlStep s e
    let r' := dlRun r.1 rest
    (r'.1, r.2 ++ r'.2)

/-- The loader state right after `loadFiles` listed `n` files: empty
cache, not ready, counters `n` and `0`, safety timer pending. -/
def dlInit (n : Nat) : DLState :=
  ⟨[], false, n, 0, true⟩

/-- What a renewed `loadFiles` call does first (lines 69–71): when the
cache is ready it returns by re-emitting `ready` with the cached corpus;
otherwise it falls through to `fs.readdir` (marked `fsScan`). -/
inductive LoadFilesStep where
  | cachedReturn : List DLEmit → LoadFilesStep
  | fsScan : LoadFilesStep

/-- The guard of lines 69–71. -/
def loadFilesStep (s : DLState) : LoadFilesStep :=
  if s.cacheReady then .cachedReturn [.ready s.cache] else .fsScan

/-- Is an event a `fileprocessed` notification (as opposed to the
timer)? -/
def isFileDone : DLEvent → Bool
  | .fileDone _ _ => true
  | .timeout => false

/-- The documents carried by the successful `fileprocessed` events, in
order. -/
def successes : List DLEvent → List JSVal
  | [] => []
  | .fileDone true o :: rest => o :: successes rest
  | _ :: rest => successes rest

/-! ## Sort lemmas: a never-negative comparator moves nothing -/

theorem bisectFuel_of_nonneg {α : Type} (cmp : α → α → Int) (pivot : α) (l : List α)
    (dflt : α) (h : ∀ a b, 0 ≤ cmp a b) :
    ∀ fuel left right, right - left ≤ fuel → left ≤ right →
      bisectFuel cmp pivot l dflt fuel left right = right := by
  intro fuel
  induction fuel with
  | zero =>
    intro left right h1 h2
    simp only [bisectFuel]
    omega
  | succ n ih =>
    intro left right h1 h2
    simp only [bisectFuel]
    by_cases hlr : left < right
    · rw [if_pos hlr, if_neg (not_lt.mpr (h _ _))]
      exact ih _ _ (by omega) (by omega)
    · rw [if_neg hlr]
      omega

theorem insertAt_length (l : List α) (x : α) : insertAt l l.length x = l ++ [x] := by
  simp [insertAt]

theorem foldl_insertAt_append {α : Type} (cmp : α → α → Int) (dflt : α)
    (h : ∀ a b, 0 ≤ cmp a b) :
    ∀ (l acc : List α),
      l.foldl (fun acc x => insertAt acc (bisectFuel cmp x acc dflt acc.length 0 acc.length) x)
          acc = acc ++ l := by
  intro l
  induction l with
  | nil => intro acc; simp
  | cons x rest ih =>
    intro acc
    rw [List.foldl_cons,
      bisectFuel_of_nonneg cmp x acc dflt h acc.length 0 acc.length (by omega) (by omega),
      insertAt_length, ih]
    simp

theorem binaryInsertionSort_of_nonneg {α : Type} (cmp : α → α → Int) (dflt : α)
    (h : ∀ a b, 0 ≤ cmp a b) (l : List α) : binaryInsertionSort cmp dflt l = l := by
  unfold binaryInsertionSort
  rw [foldl_insertAt_append cmp dflt h l []]
  simp

theorem sortCompare_nonneg (a b : QueryResult) : 0 ≤ sortCompare a b := by
  unfold sortCompare
  split <;> omega

/-- The net effect of line 65 under V8: the result array is returned in
the order it was built. -/
theorem sortJS_id (l : List QueryResult) :
    binaryInsertionSort sortCompare (⟨"", 0⟩ : QueryResult) l = l :=
  binaryInsertionSort_of_nonneg _ _ sortCompare_nonneg l

/-! ## Dictionary lemmas -/

theorem lookup_cons (k t : String) (n : Nat) (rest : Counts) :
    List.lookup t ((k, n) :: rest) = if t = k then some n else List.lookup t rest := by
  by_cases h : t = k
  · simp [List.lookup, h]
  · have hb : (t == k) = false := beq_eq_false_iff_ne.mpr h
    simp [List.lookup, hb, h]

theorem getT_cons (k t : String) (n : Nat) (rest : Counts) :
    getT ((k, n) :: rest) t = if t = k then n else getT rest t := by
  by_cases h : t = k <;> simp [getT, lookup_cons, h]

theorem keysOf_cons (k : String) (n : Nat) (rest : Counts) :
    keysOf ((k, n) :: rest) = k :: keysOf rest := rfl

theorem keysOf_bumpT (m : Counts) (t : String) : keysOf (bumpT m t) = keysOf m := by
  induction m with
  | nil => rfl
  | cons kv rest ih =>
    obtain ⟨k, n⟩ := kv
    by_cases hk : k = t
    · simp [bumpT, hk, keysOf_cons]
    · simp [bumpT, hk, keysOf_cons, ih]

theorem getT_bumpT_self (m : Counts) (t : String) (h : t ∈ keysOf m) :
    getT (bumpT m t) t = getT m t + 1 := by
  induction m with
  | nil => simp [keysOf] at h
  | cons kv rest ih =>
    obtain ⟨k, n⟩ := kv
    by_cases hk : k = t
    · subst hk
      simp [bumpT, getT_cons]
    · rw [keysOf_cons] at h
      rcases List.mem_cons.mp h with h1 | h1
      · exact absurd h1.symm hk
      · have hne : t ≠ k := fun hc => hk hc.symm
        simp only [bumpT, if_neg hk, getT_cons, if_neg hne]
        exact ih h1

theorem getT_bumpT_ne (m : Counts) (u t : String) (h : t ≠ u) :
    getT (bumpT m u) t = getT m t := by
  induction m with
  | nil => rfl
  | cons kv rest ih =>
    obtain ⟨k, n⟩ := kv
    by_cases hk : k = u
    · subst hk
      have hne : t ≠ k := h
      simp [bumpT, getT_cons, if_neg hne]
    · by_cases htk : t = k
      · subst htk
        simp [bumpT, hk, getT_cons]
      · simp only [bumpT, if_neg hk, getT_cons, if_neg htk]
        exact ih

theorem keysOf_bumpMatches (tags : List String) (s : String) (m : Counts) :
    keysOf (bumpMatches tags s m) = keysOf m := by
  induction tags generalizing m with
  | nil => rfl
  | cons u rest ih =>
    simp only [bumpMatches, List.foldl_cons] at ih ⊢
    rw [ih]
    split <;> simp [keysOf_bumpT]

theorem getT_bumpMatches (tags : List String) (s : String) (m : Counts) (t : String)
    (ht : t ∈ keysOf m) :
    getT (bumpMatches tags s m) t
      = getT m t + (if strIncludes s t then tags.count t else 0) := by
  induction tags generalizing m with
  | nil => simp [bumpMatches]
  | cons u rest ih =>
    simp only [bumpMatches, List.foldl_cons] at ih ⊢
    by_cases hu : u = t
    · subst hu
      rcases Bool.eq_false_or_eq_true (strIncludes s u) with hinc | hinc
      · rw [if_pos hinc, ih (bumpT m u) (by rw [keysOf_bumpT]; exact ht),
          getT_bumpT_self m u ht]
        simp [hinc, List.count_cons]
        omega
      · rw [if_neg (by simp [hinc]), ih m ht]
        simp [hinc]
    · have hne : t ≠ u := fun hc => hu hc.symm
      have hcnt : (u :: rest).count t = rest.count t := by
        rw [List.count_cons]
        simp [List.count_cons, beq_eq_false_iff_ne.mpr hu, beq_eq_false_iff_ne.mpr hne]
      rcases Bool.eq_false_or_eq_true (strIncludes s u) with hinc | hinc
      · rw [if_pos hinc, ih (bumpT m u) (by rw [keysOf_bumpT]; exact ht),
          getT_bumpT_ne m u t hne, hcnt]
      · rw [if_neg (by simp [hinc]), ih m ht, hcnt]

/-- Applying the string-leaf branch once per leaf of a list, in order. -/
def applyLeaves (tags : List String) (ls : List String) (res : Counts) : Counts :=
  ls.foldl (fun r s => bumpMatches tags s r) res

theorem applyLeaves_append (tags : List String) (l₁ l₂ : List String) (res : Counts) :
    applyLeaves tags (l₁ ++ l₂) res = applyLeaves tags l₂ (applyLeaves tags l₁ res) := by
  simp [applyLeaves, List.foldl_append]

theorem keysOf_applyLeaves (tags ls : List String) (m : Counts) :
    keysOf (applyLeaves tags ls m) = keysOf m := by
  induction ls generalizing m with
  | nil => rfl
  | cons s rest ih =>
    simp only [applyLeaves, List.foldl_cons] at ih ⊢
    rw [ih, keysOf_bumpMatches]

theorem getT_applyLeaves (tags ls : List String) (m : Counts) (t : String)
    (ht : t ∈ keysOf m) :
    getT (applyLeaves tags ls m) t
      = getT m t + tags.count t * ls.countP (fun s => strIncludes s t) := by
  induction ls generalizing m with
  | nil => simp [applyLeaves]
  | cons s rest ih =>
    simp only [applyLeaves, List.foldl_cons] at ih ⊢
    rw [ih (bumpMatches tags s m) (by rw [keysOf_bumpMatches]; exact ht),
      getT_bumpMatches tags s m t ht, List.countP_cons]
    cases hinc : strIncludes s t <;> simp [hinc] <;> ring

theorem lookup_setT_self (m : Counts) (t : String) (n : Nat) :
    List.lookup t (setT m t n) = some n := by
  induction m with
  | nil => simp [setT, List.lookup]
  | cons kv rest ih =>
    obtain ⟨k, v⟩ := kv
    by_cases hk : k = t
    · subst hk
      simp [setT, lookup_cons]
    · simp only [setT, if_neg hk, lookup_cons, if_neg (fun hc : t = k => hk hc.symm)]
      exact ih

theorem lookup_setT_ne (m : Counts) (u t : String) (n : Nat) (h : t ≠ u) :
    List.lookup t (setT m u n) = List.lookup t m := by
  induction m with
  | nil => simp [setT, lookup_cons, h]
  | cons kv rest ih =>
    obtain ⟨k, v⟩ := kv
    by_cases hk : k = u
    · subst hk
      simp [setT, lookup_cons, h]
    · by_cases htk : t = k
      · subst htk
        simp [setT, hk, lookup_cons]
      · simp only [setT, if_neg hk, lookup_cons, if_neg htk]
        exact ih


theorem lookup_isSome_iff (m : Counts) (t : String) :
    (List.lookup t m).isSome = true ↔ t ∈ keysOf m := by
  induction m with
  | nil => simp [keysOf]
  | cons kv rest ih =>
    obtain ⟨k, v⟩ := kv
    rw [lookup_cons, keysOf_cons]
    by_cases htk : t = k
    · simp [htk]
    · simp [htk, ih]

theorem lookup_foldl_setT (g : String → Nat) (ls : List String) (cache : Counts)
    (t : String) :
    List.lookup t (ls.foldl (fun c u => setT c u (g u)) cache)
      = if t ∈ ls then some (g t) else List.lookup t cache := by
  induction ls generalizing cache with
  | nil => simp
  | cons u rest ih =>
    simp only [List.foldl_cons, ih (setT cache u (g u))]
    by_cases hr : t ∈ rest
    · simp [hr]
    · by_cases htu : t = u
      · subst htu
        simp [hr, lookup_setT_self]
      · simp [hr, htu, lookup_setT_ne cache u t (g u) htu]

theorem lookup_initTmp (ls : List String) (t : String) :
    List.lookup t (initTmp ls) = if t ∈ ls then some 0 else none := by
  have h := lookup_foldl_setT (fun _ => 0) ls [] t
  simpa [initTmp] using h

theorem getT_initTmp (ls : List String) (t : String) : getT (initTmp ls) t = 0 := by
  rw [getT, lookup_initTmp]
  split <;> rfl

theorem mem_keysOf_initTmp (ls : List String) (t : String) :
    t ∈ keysOf (initTmp ls) ↔ t ∈ ls := by
  rw [← lookup_isSome_iff, lookup_initTmp]
  by_cases h : t ∈ ls <;> simp [h]

/-! ## The traversal visits a list of string leaves -/

mutual

/-- The string leaves met (in order) when the for-in dispatch recurses
into a value. -/
def entryLeaves : JSVal → List String
  | .str s => [s]
  | .obj kvs => fieldsLeaves kvs
  | .arr xs => elemsLeaves xs
  | .num _ => []
  | .bool _ => []
  | .null => []

/-- String leaves below an object's fields, in order. -/
def fieldsLeaves : JSFields → List String
  | .nil => []
  | .fcons _ v rest => entryLeaves v ++ fieldsLeaves rest

/-- String leaves below an array's elements, in order. -/
def elemsLeaves : JSList → List String
  | .nil => []
  | .cons v rest => entryLeaves v ++ elemsLeaves rest

end

/-- The string leaves a top-level call `_processObject(tags, v, ·)`
tests: an object's or array's leaves, or — for a string document — its
characters as one-character strings. -/
def docLeaves : JSVal → List String
  | .str s => s.data.map String.singleton
  | .obj kvs => fieldsLeaves kvs
  | .arr xs => elemsLeaves xs
  | .num _ => []
  | .bool _ => []
  | .null => []

mutual

theorem processEntry_eq_applyLeaves (tags : List String) :
    ∀ (v : JSVal) (res : Counts),
      processEntry tags v res = applyLeaves tags (entryLeaves v) res
  | .str s, res => rfl
  | .obj kvs, res => processFields_eq_applyLeaves tags kvs res
  | .arr xs, res => processElems_eq_applyLeaves tags xs res
  | .num _, res => rfl
  | .bool _, res => rfl
  | .null, res => rfl

theorem processFields_eq_applyLeaves (tags : List String) :
    ∀ (kvs : JSFields) (res : Counts),
      processFields tags kvs res = applyLeaves tags (fieldsLeaves kvs) res
  | .nil, res => rfl
  | .fcons k v rest, res => by
    rw [processFields, fieldsLeaves, applyLeaves_append,
      ← processEntry_eq_applyLeaves tags v res,
      processFields_eq_applyLeaves tags rest (processEntry tags v res)]

theorem processElems_eq_applyLeaves (tags : List String) :
    ∀ (xs : JSList) (res : Counts),
      processElems tags xs res = applyLeaves tags (elemsLeaves xs) res
  | .nil, res => rfl
  | .cons v rest, res => by
    rw [processElems, elemsLeaves, applyLeaves_append,
      ← processEntry_eq_applyLeaves tags v res,
      processElems_eq_applyLeaves tags rest (processEntry tags v res)]

end

theorem processStrChars_eq_applyLeaves (tags : List String) :
    ∀ (cs : List Char) (res : Counts),
      processStrChars tags cs res = applyLeaves tags (cs.map String.singleton) res
  | [], res => rfl
  | c :: rest, res => by
    rw [processStrChars, List.map_cons]
    show processStrChars tags rest (bumpMatches tags (String.singleton c) res)
      = applyLeaves tags (String.singleton c :: rest.map String.singleton) res
    rw [processStrChars_eq_applyLeaves tags rest (bumpMatches tags (String.singleton c) res)]
    rfl

theorem processObject_eq_applyLeaves (tags : List String) (v : JSVal) (res : Counts) :
    processObject tags v res = applyLeaves tags (docLeaves v) res := by
  cases v with
  | str s => exact processStrChars_eq_applyLeaves tags s.data res
  | obj kvs => exact processFields_eq_applyLeaves tags kvs res
  | arr xs => exact processElems_eq_applyLeaves tags xs res
  | num n => rfl
  | bool b => rfl
  | null => rfl

/-- All string leaves of a corpus, in traversal order. -/
def corpusLeaves (data : List JSVal) : List String :=
  (data.map docLeaves).flatten

theorem corpusLeaves_cons (d : JSVal) (rest : List JSVal) :
    corpusLeaves (d :: rest) = docLeaves d ++ corpusLeaves rest := by
  simp [corpusLeaves]

theorem traverse_eq_applyLeaves (tags : List String) :
    ∀ (data : List JSVal) (res : Counts),
      data.foldl (fun r o => processObject tags o r) res
        = applyLeaves tags (corpusLeaves data) res
  | [], res => rfl
  | d :: rest, res => by
    rw [List.foldl_cons, traverse_eq_applyLeaves tags rest (processObject tags d res),
      processObject_eq_applyLeaves tags d res, corpusLeaves_cons, applyLeaves_append]

/-- The number of string leaves of the corpus that contain `t` as a
substring: the count `process` computes for an uncached tag. -/
def tagCorpusCount (data : List JSVal) (t : String) : Nat :=
  (corpusLeaves data).countP (fun s => strIncludes s t)

/-! ## Locating a tag's entry in the result array -/

/-- The count reported for tag `t` by a result array: the count of the
first entry carrying that tag, if any. -/
def resCount (res : List QueryResult) (t : String) : Option Nat :=
  (res.find? (fun e => e.tag == t)).map QueryResult.count

theorem cachedResults_cons_hit (cache : Counts) (u : String) (rest : List String)
    (c : Nat) (hm : cacheHit cache u = some c) :
    cachedResults cache (u :: rest) = ⟨u, c⟩ :: cachedResults cache rest := by
  simp [cachedResults, List.filterMap_cons, hm]

theorem cachedResults_cons_miss (cache : Counts) (u : String) (rest : List String)
    (hm : cacheHit cache u = none) :
    cachedResults cache (u :: rest) = cachedResults cache rest := by
  simp [cachedResults, List.filterMap_cons, hm]

theorem tagsToProcessOf_cons_hit (cache : Counts) (u : String) (rest : List String)
    (c : Nat) (hm : cacheHit cache u = some c) :
    tagsToProcessOf cache (u :: rest) = tagsToProcessOf cache rest := by
  simp [tagsToProcessOf, List.filter_cons, hm]

theorem tagsToProcessOf_cons_miss (cache : Counts) (u : String) (rest : List String)
    (hm : cacheHit cache u = none) :
    tagsToProcessOf cache (u :: rest) = u :: tagsToProcessOf cache rest := by
  simp [tagsToProcessOf, List.filter_cons, hm]

theorem tag_mem_of_mem_cachedResults (cache : Counts) (T : List String) (e : QueryResult)
    (he : e ∈ cachedResults cache T) : e.tag ∈ T := by
  simp only [cachedResults, List.mem_filterMap] at he
  obtain ⟨u, hu, hmap⟩ := he
  cases hm : cacheHit cache u with
  | none => rw [hm] at hmap; cases hmap
  | some c =>
    rw [hm] at hmap
    have he : (⟨u, c⟩ : QueryResult) = e := by simpa using hmap
    rw [← he]
    exact hu

theorem find?_cachedResults_eq_none (cache : Counts) (T : List String) (t : String)
    (h : t ∉ T) :
    List.find? (fun e => e.tag == t) (cachedResults cache T) = none := by
  apply List.find?_eq_none.mpr
  intro e he
  simp only [beq_iff_eq]
  intro hc
  exact h (hc ▸ tag_mem_of_mem_cachedResults cache T e he)

/-- Where each tag's reported count comes from, for any value `g`
assigned to the uncached tags: a cached (truthy) count is reported from
the cache, anything else is reported as `g t`. -/
theorem resCount_parts (g : String → Nat) (cache : Counts) (T : List String) (t : String)
    (hnd : T.Nodup) (ht : t ∈ T) :
    resCount (cachedResults cache T
        ++ (tagsToProcessOf cache T).map (fun u => (⟨u, g u⟩ : QueryResult))) t
      = some (match cacheHit cache t with | some c => c | none => g t) := by
  induction T with
  | nil => cases ht
  | cons u rest ih =>
    by_cases htu : t = u
    · subst htu
      have htr : t ∉ rest := (List.nodup_cons.mp hnd).1
      cases hm : cacheHit cache t with
      | some c =>
        rw [cachedResults_cons_hit cache t rest c hm]
        simp [resCount, List.find?_cons, hm]
      | none =>
        rw [cachedResults_cons_miss cache t rest hm,
          tagsToProcessOf_cons_miss cache t rest hm]
        simp only [resCount, List.map_cons, List.find?_append,
          find?_cachedResults_eq_none cache rest t htr, Option.none_or]
        simp [List.find?_cons, hm]
    · have htr : t ∈ rest := by
        rcases List.mem_cons.mp ht with h1 | h1
        · exact absurd h1 htu
        · exact h1
      have ihr := ih (List.nodup_cons.mp hnd).2 htr
      cases hm : cacheHit cache u with
      | some c =>
        rw [cachedResults_cons_hit cache u rest c hm,
          tagsToProcessOf_cons_hit cache u rest c hm]
        rw [List.cons_append]
        rw [resCount, List.find?_cons_of_neg, ← resCount]
        · exact ihr
        · simp only [beq_iff_eq]
          exact fun hc => htu hc.symm
      | none =>
        rw [cachedResults_cons_miss cache u rest hm,
          tagsToProcessOf_cons_miss cache u rest hm]
        simp only [resCount, List.find?_append, List.map_cons] at ihr ⊢
        rw [List.find?_cons_of_neg]
        · exact ihr
        · simp only [beq_iff_eq]
          exact fun hc => htu hc.symm

/-! ## What one `process` call computes, per tag -/

/-- A truthy cache hit is exactly a stored non-zero count. -/
theorem cacheHit_spec (cache : Counts) (t : String) (c : Nat)
    (h : cacheHit cache t = some c) :
    List.lookup t cache = some c ∧ c ≠ 0 := by
  unfold cacheHit at h
  split at h
  next c2 hl =>
    split at h
    · cases h
    next hz =>
      have hc := Option.some.inj h
      subst hc
      exact ⟨hl, hz⟩
  next hl => cases h


/-- `tmpResults` after the traversal loop of lines 54–57. -/
def tmpOf (cache : Counts) (data : List JSVal) (T : List String) : Counts :=
  data.foldl (fun r o => processObject (tagsToProcessOf cache T) o r)
    (initTmp (tagsToProcessOf cache T))

theorem processData_fst (cache : Counts) (data : List JSVal) (T : List String) :
    (processData cache data T).1
      = cachedResults cache T
        ++ (tagsToProcessOf cache T).map
            (fun t => (⟨t, getT (tmpOf cache data T) t⟩ : QueryResult)) := by
  have h : (processData cache data T).1
      = binaryInsertionSort sortCompare (⟨"", 0⟩ : QueryResult)
          (cachedResults cache T
            ++ (tagsToProcessOf cache T).map
                (fun t => (⟨t, getT (tmpOf cache data T) t⟩ : QueryResult))) := rfl
  rw [h, sortJS_id]

theorem processData_cache (cache : Counts) (data : List JSVal) (T : List String) :
    (processData cache data T).2.1
      = (tagsToProcessOf cache T).foldl
          (fun c t => setT c t (getT (tmpOf cache data T) t)) cache := rfl

theorem processData_ttp (cache : Counts) (data : List JSVal) (T : List String) :
    (processData cache data T).2.2 = tagsToProcessOf cache T := rfl

theorem getT_tmpOf (cache : Counts) (data : List JSVal) (T : List String) (t : String)
    (ht : t ∈ tagsToProcessOf cache T) :
    getT (tmpOf cache data T) t
      = (tagsToProcessOf cache T).count t * tagCorpusCount data t := by
  rw [tmpOf, traverse_eq_applyLeaves,
    getT_applyLeaves _ _ _ t ((mem_keysOf_initTmp _ t).mpr ht), getT_initTmp]
  simp [tagCorpusCount]

theorem getT_tmpOf_nodup (cache : Counts) (data : List JSVal) (T : List String)
    (t : String) (hnd : T.Nodup) (ht : t ∈ tagsToProcessOf cache T) :
    getT (tmpOf cache data T) t = tagCorpusCount data t := by
  have h1 : (tagsToProcessOf cache T).count t = 1 :=
    List.count_eq_one_of_mem (List.Nodup.filter _ hnd) ht
  rw [getT_tmpOf cache data T t ht, h1, Nat.one_mul]

theorem mem_ttp_iff (cache : Counts) (T : List String) (t : String) (ht : t ∈ T) :
    t ∈ tagsToProcessOf cache T ↔ cacheHit cache t = none := by
  constructor
  · intro h
    have := (List.mem_filter.mp h).2
    simpa [Option.isNone_iff_eq_none] using this
  · intro h
    exact List.mem_filter.mpr ⟨ht, by simp [h]⟩

/-- The count `process` reports for each requested tag: the cached value
for a truthy cache hit, otherwise the number of corpus leaves containing
the tag. -/
theorem resCount_processData (cache : Counts) (data : List JSVal) (T : List String)
    (t : String) (hnd : T.Nodup) (ht : t ∈ T) :
    resCount (processData cache data T).1 t
      = some (match cacheHit cache t with
              | some c => c
              | none => tagCorpusCount data t) := by
  rw [processData_fst]
  have h := resCount_parts (fun u => getT (tmpOf cache data T) u) cache T t hnd ht
  rw [h]
  cases hm : cacheHit cache t with
  | some c => rfl
  | none =>
    have htp : t ∈ tagsToProcessOf cache T := (mem_ttp_iff cache T t ht).mpr hm
    simp only []
    rw [getT_tmpOf_nodup cache data T t hnd htp]

/-- The cache after one `process` call: every requested tag is stored —
a truthy hit keeps its value, every other requested tag (including those
whose new count is 0) is stored with the freshly computed count. -/
theorem lookup_processData_cache (cache : Counts) (data : List JSVal) (T : List String)
    (t : String) (hnd : T.Nodup) (ht : t ∈ T) :
    List.lookup t (processData cache data T).2.1
      = some (match cacheHit cache t with
              | some c => c
              | none => tagCorpusCount data t) := by
  rw [processData_cache, lookup_foldl_setT]
  by_cases htp : t ∈ tagsToProcessOf cache T
  · rw [if_pos htp]
    have hm : cacheHit cache t = none := (mem_ttp_iff cache T t ht).mp htp
    rw [hm, getT_tmpOf_nodup cache data T t hnd htp]
  · rw [if_neg htp]
    cases hm : cacheHit cache t with
    | none => exact absurd ((mem_ttp_iff cache T t ht).mpr hm) htp
    | some c =>
      obtain ⟨hl, hz⟩ := cacheHit_spec cache t c hm
      rw [hl]

/-- Untouched tags keep their old cache entry through a `process` call. -/
theorem lookup_processData_cache_notmem (cache : Counts) (data : List JSVal)
    (T : List String) (t : String) (ht : t ∉ tagsToProcessOf cache T) :
    List.lookup t (processData cache data T).2.1 = List.lookup t cache := by
  rw [processData_cache, lookup_foldl_setT, if_neg ht]

/-! ## Loader run lemmas -/

theorem dlRun_append (s : DLState) (l₁ l₂ : List DLEvent) :
    dlRun s (l₁ ++ l₂)
      = ((dlRun (dlRun s l₁).1 l₂).1, (dlRun s l₁).2 ++ (dlRun (dlRun s l₁).1 l₂).2) := by
  induction l₁ generalizing s with
  | nil => simp [dlRun]
  | cons e rest ih =>
    simp only [List.cons_append, dlRun, List.append_eq]
    rw [ih (dlStep s e).1]
    simp [List.append_assoc]

/-- Emissions of a run of `fileprocessed` events that does not reach the
total: nothing is emitted; the successes are appended and the counter
advances. -/
theorem dlRun_partial (s : DLState) (evs : List DLEvent)
    (hall : ∀ e ∈ evs, isFileDone e = true)
    (hlt : s.filesProcessedCount + evs.length < s.filesToProcessCount) :
    dlRun s evs
      = ({ s with cache := s.cache ++ successes evs,
                  filesProcessedCount := s.filesProcessedCount + evs.length }, []) := by
  induction evs generalizing s with
  | nil => simp [dlRun, successes]
  | cons e rest ih =>
    cases e with
    | timeout => exact absurd (hall _ (List.mem_cons_self _ _)) (by simp [isFileDone])
    | fileDone ok o =>
      have hne : s.filesToProcessCount ≠ s.filesProcessedCount + 1 := by
        simp only [List.length_cons] at hlt
        omega
      simp only [dlRun, dlStep]
      rw [if_neg hne]
      rw [ih { s with cache := (if ok then s.cache ++ [o] else s.cache),
                      filesProcessedCount := s.filesProcessedCount + 1 }
        (fun e he => hall e (List.mem_cons_of_mem _ he))
        (by simp only [List.length_cons] at hlt ⊢; omega)]
      cases ok <;> simp [successes, List.append_assoc] <;> omega

/-- Emissions of a run of `fileprocessed` events that reaches the total:
exactly one `ready`, carrying all successes, at the final event; the
cache becomes ready and the timer is cleared — with no regard to whether
`fatal` was already emitted. -/
theorem dlRun_completing (s : DLState) (evs : List DLEvent)
    (hall : ∀ e ∈ evs, isFileDone e = true) (hne : evs ≠ [])
    (hsum : s.filesProcessedCount + evs.length = s.filesToProcessCount) :
    dlRun s evs
      = ({ s with cache := s.cache ++ successes evs,
                  filesProcessedCount := s.filesToProcessCount,
                  timerPending := false, cacheReady := true },
         [DLEmit.ready (s.cache ++ successes evs)]) := by
  induction evs generalizing s with
  | nil => cases hne rfl
  | cons e rest ih =>
    cases e with
    | timeout => exact absurd (hall _ (List.mem_cons_self _ _)) (by simp [isFileDone])
    | fileDone ok o =>
      by_cases hr : rest = []
      · subst hr
        have heq : s.filesToProcessCount = s.filesProcessedCount + 1 := by
          simp only [List.length_cons, List.length_nil] at hsum
          omega
        simp only [dlRun, dlStep]
        rw [if_pos heq]
        cases ok <;> simp [successes, heq]
      · have hne2 : s.filesToProcessCount ≠ s.filesProcessedCount + 1 := by
          simp only [List.length_cons] at hsum
          have : 0 < rest.length := List.length_pos.mpr hr
          omega
        simp only [dlRun, dlStep]
        rw [if_neg hne2]
        rw [ih { s with cache := (if ok then s.cache ++ [o] else s.cache),
                        filesProcessedCount := s.filesProcessedCount + 1 }
          (fun e he => hall e (List.mem_cons_of_mem _ he)) hr
          (by simp only [List.length_cons] at hsum ⊢; omega)]
        cases ok <;> simp [successes, List.append_assoc]

/-! ## Remaining helper lemmas for the claims -/

theorem map_tag_cachedResults (cache : Counts) (T : List String) :
    (cachedResults cache T).map QueryResult.tag
      = T.filter (fun t => (cacheHit cache t).isSome) := by
  induction T with
  | nil => rfl
  | cons u rest ih =>
    cases hm : cacheHit cache u with
    | some c =>
      rw [cachedResults_cons_hit cache u rest c hm]
      simp [List.filter_cons, hm, ih]
    | none =>
      rw [cachedResults_cons_miss cache u rest hm]
      simp [List.filter_cons, hm, ih]

/-- The tags of the result array are a permutation of the requested
tags. -/
theorem perm_tags_processData (cache : Counts) (C : List JSVal) (T : List String) :
    List.Perm ((processData cache C T).1.map QueryResult.tag) T := by
  rw [processData_fst, List.map_append, map_tag_cachedResults, List.map_map]
  have h2 : (QueryResult.tag ∘ fun t => (⟨t, getT (tmpOf cache C T) t⟩ : QueryResult))
      = id := rfl
  rw [h2, List.map_id]
  have h3 : tagsToProcessOf cache T
      = T.filter (fun t => !(cacheHit cache t).isSome) := by
    unfold tagsToProcessOf
    apply List.filter_congr
    intro t _
    cases cacheHit cache t <;> rfl
  rw [h3]
  exact List.filter_append_perm _ T

theorem strIncludes_singleton_long (c : Char) (t : String) (h : 2 ≤ t.length) :
    strIncludes (String.singleton c) t = false := by
  have hd : (String.singleton c).data = [c] := rfl
  rw [strIncludes, hd]
  have hl : 2 ≤ t.data.length := h
  match hT : t.data with
  | [] => rw [hT] at hl; simp at hl
  | [d] => rw [hT] at hl; simp at hl
  | d₁ :: d₂ :: rest => simp [hasSubstr, List.isPrefixOf]

theorem strIncludes_singleton_singleton (c' c : Char) :
    strIncludes (String.singleton c') (String.singleton c) = (c == c') := by
  have hd : ∀ x : Char, (String.singleton x).data = [x] := fun _ => rfl
  rw [strIncludes, hd, hd]
  simp [hasSubstr, List.isPrefixOf]

/-- The timer firing emits `fatal` and the run continues with the timer
spent. -/
theorem dlRun_timeout_cons (s : DLState) (evs : List DLEvent) :
    dlRun s (DLEvent.timeout :: evs)
      = ((dlRun { s with timerPending := false } evs).1,
         DLEmit.fatal :: (dlRun { s with timerPending := false } evs).2) := by
  simp [dlRun, dlStep]

/-! ## Claims -/

/-- C5: for every corpus C and every sanitized (duplicate-free,
non-empty) tag set T, `count(T)` on an engine initialized with C (any
cache state) returns exactly |T| entries, one per input tag, each with a
count ≥ 0. -/
theorem C5_count_shape (cache : Counts) (C : List JSVal) (T : List String)
    (hnd : T.Nodup) (hne : T ≠ []) :
    ∃ res s', process ⟨cache, some C⟩ T = .ok (res, s')
      ∧ res.length = T.length
      ∧ List.Perm (res.map QueryResult.tag) T
      ∧ ∀ e ∈ res, 0 ≤ e.count := by
  refine ⟨(processData cache C T).1, ⟨(processData cache C T).2.1, some C⟩, rfl, ?_,
    perm_tags_processData cache C T, fun e _ => Nat.zero_le _⟩
  have h := (perm_tags_processData cache C T).length_eq
  simpa using h

/-- C5 witness: a concrete instance of the shape property. -/
theorem C5_count_shape_witness :
    ∃ res s', process ⟨[], some []⟩ ["a"] = .ok (res, s')
      ∧ res.length = (["a"] : List String).length
      ∧ List.Perm (res.map QueryResult.tag) ["a"]
      ∧ ∀ e ∈ res, 0 ≤ e.count :=
  C5_count_shape [] [] ["a"] (by decide) (by decide)

/-- The first document of the spec's determinism example. -/
def specDoc1 : JSVal :=
  .obj (.fcons "tags" (.arr (.cons (.str "red apple") (.cons (.str "blue") .nil))) .nil)

/-- The second document of the spec's determinism example. -/
def specDoc2 : JSVal :=
  .obj (.fcons "nested"
    (.obj (.fcons "x" (.arr (.cons (.str "green") (.cons (.str "redwood") .nil))) .nil))
    .nil)

/-- C6: on the corpus `[{"tags":["red apple","blue"]},
{"nested":{"x":["green","redwood"]}}]`, `count(["red"])` is
`[("red", 2)]` ("red apple" and "redwood" both match by substring, after
descending nested objects and arrays) and `count(["blue"])` is
`[("blue", 1)]`. -/
theorem C6_substring_semantics :
    (processData [] [specDoc1, specDoc2] ["red"]).1 = [⟨"red", 2⟩]
    ∧ (processData [] [specDoc1, specDoc2] ["blue"]).1 = [⟨"blue", 1⟩] := by
  constructor
  · decide
  · decide

/-- C7: a string leaf met during the traversal contributes exactly 1 to
an uncached tag's counter when it contains the tag as a substring (and 0
otherwise) — presence per leaf, not number of occurrences. -/
theorem C7_leaf_presence (tags : List String) (t s : String) (res : Counts)
    (hmem : t ∈ tags) (hnd : tags.Nodup) (hk : t ∈ keysOf res) :
    getT (processEntry tags (.str s) res) t
      = getT res t + (if strIncludes s t then 1 else 0) := by
  have h : processEntry tags (.str s) res = bumpMatches tags s res := rfl
  rw [h, getT_bumpMatches tags s res t hk, List.count_eq_one_of_mem hnd hmem]

/-- C7 witness: a leaf containing the tag three times still contributes
exactly 1. -/
theorem C7_leaf_presence_witness :
    getT (processEntry ["red"] (.str "red is red is red") [("red", 0)]) "red" = 1
    ∧ strIncludes "red is red is red" "red" = true := by
  constructor
  · rw [C7_leaf_presence ["red"] "red" "red is red is red" [("red", 0)]
      (by decide) (by decide) (by decide)]
    decide
  · decide

/-- C10: a corpus entry that is itself a string is enumerated by for-in
character by character: a tag at least 2 characters long contributes 0
from that document (even if the document contains it as a substring),
and a one-character tag counts once per matching character. -/
theorem C10_string_doc_chars (doc : String) (t : String) (tags : List String)
    (res : Counts) (hmem : t ∈ tags) (hnd : tags.Nodup) (hk : t ∈ keysOf res) :
    (2 ≤ t.length →
      getT (processObject tags (.str doc) res) t = getT res t)
    ∧ (∀ c : Char, t = String.singleton c →
      getT (processObject tags (.str doc) res) t
        = getT res t + doc.data.count c) := by
  have hbase : getT (processObject tags (.str doc) res) t
      = getT res t
        + (doc.data.map String.singleton).countP (fun s => strIncludes s t) := by
    rw [processObject_eq_applyLeaves, getT_applyLeaves tags _ res t hk,
      List.count_eq_one_of_mem hnd hmem, Nat.one_mul]
    rfl
  constructor
  · intro hlen
    rw [hbase, List.countP_map]
    have hz : ∀ c ∈ doc.data,
        ((fun s => strIncludes s t) ∘ String.singleton) c = false := fun c _ =>
      strIncludes_singleton_long c t hlen
    rw [List.countP_eq_zero.mpr (by simpa using hz)]
    omega
  · intro c hc
    subst hc
    rw [hbase, List.countP_map, List.count]
    congr 1
    apply List.countP_congr
    intro c' _
    simp [Function.comp, strIncludes_singleton_singleton c' c]
    constructor
    · intro h; exact h.symm
    · intro h; exact h.symm

/-- C10 witness: the scalar string document "redwood" gives count 0 for
the tag "red" although it contains "red", and count 2 for the
one-character tag "d". -/
theorem C10_string_doc_chars_witness :
    getT (processObject ["red"] (.str "redwood") [("red", 0)]) "red" = 0
    ∧ strIncludes "redwood" "red" = true
    ∧ getT (processObject ["d"] (.str "redwood") [("d", 0)]) "d" = 2 := by
  refine ⟨?_, by decide, ?_⟩
  · rw [(C10_string_doc_chars "redwood" "red" ["red"] [("red", 0)]
      (by decide) (by decide) (by decide)).1 (by decide)]
    decide
  · rw [(C10_string_doc_chars "redwood" "d" ["d"] [("d", 0)]
      (by decide) (by decide) (by decide)).2 'd' (by decide)]
    decide

/-- C8: `process` before any successful `setData` throws the
not-initialized error, `setData` with a non-array argument throws the
invalid-input error; both are pure error returns that leave the engine
state untouched, and the same engine still accepts a valid
initialization afterwards. -/
theorem C8_precondition_errors (s : TagsFinder) (T : List String) (v : JSVal)
    (hdata : s.data = none) (hv : ∀ docs : JSList, v ≠ .arr docs) :
    process s T = .error .notInitialized
    ∧ setData s v = .error .invalidInput
    ∧ ∀ docs : JSList, setData s (.arr docs) = .ok { s with data := some docs.toList } := by
  refine ⟨?_, ?_, fun docs => rfl⟩
  · simp [process, hdata]
  · cases v with
    | arr docs => exact absurd rfl (hv docs)
    | str s => rfl
    | num n => rfl
    | bool b => rfl
    | null => rfl
    | obj kvs => rfl

/-- C8 witness: concrete uninitialized engine and non-array argument. -/
theorem C8_precondition_errors_witness :
    process ⟨[], none⟩ ["a"] = .error .notInitialized
    ∧ setData ⟨[], none⟩ .null = .error .invalidInput
    ∧ ∀ docs : JSList,
        setData ⟨[], none⟩ (.arr docs) = .ok ⟨[], some docs.toList⟩ :=
  C8_precondition_errors ⟨[], none⟩ ["a"] .null rfl (fun _ h => by cases h)

/-- A one-leaf document used by the C1 counterexample. -/
def docA : JSVal := .obj (.fcons "k" (.str "a") .nil)

/-- C1 counterexample: `setData` does not reset the cache.  Query ["a"]
on corpus [docA] (count 1 is cached), re-initialize with the new empty
corpus, and query ["a"] again: the stale count 1 cached before
re-initialization appears in the result, although the new corpus has no
leaves at all. -/
theorem C1_counterexample :
    (processData [] [docA] ["a"]).2.1 = [("a", 1)]
    ∧ setData ⟨(processData [] [docA] ["a"]).2.1, some [docA]⟩ (.arr .nil)
        = .ok ⟨[("a", 1)], some []⟩
    ∧ process (⟨[("a", 1)], some []⟩ : TagsFinder) ["a"]
        = .ok ([⟨"a", 1⟩], ⟨[("a", 1)], some []⟩)
    ∧ tagCorpusCount [] "a" = 0 :=
  ⟨rfl, rfl, rfl, rfl⟩

/-- C1 (amended): `setData` with any array replaces the corpus but
leaves the count cache exactly as it was; a tag with a truthy cached
count keeps answering with that pre-reinitialization count, whatever the
new corpus is. -/
theorem C1_cache_survives_reinit (s : TagsFinder) (docs : JSList) (t : String) (c : Nat)
    (hc : cacheHit s.cache t = some c) :
    ∃ s', setData s (.arr docs) = .ok s'
      ∧ s'.cache = s.cache
      ∧ process s' [t] = .ok ([⟨t, c⟩], s') := by
  refine ⟨{ s with data := some docs.toList }, rfl, rfl, ?_⟩
  have hfst : (processData s.cache docs.toList [t]).1 = [⟨t, c⟩] := by
    rw [processData_fst]
    simp [cachedResults, tagsToProcessOf, hc]
  have hcache : (processData s.cache docs.toList [t]).2.1 = s.cache := by
    rw [processData_cache]
    simp [tagsToProcessOf, hc]
  have hstep : process { s with data := some docs.toList } [t]
      = .ok ((processData s.cache docs.toList [t]).1,
             { s with data := some docs.toList,
                      cache := (processData s.cache docs.toList [t]).2.1 }) := rfl
  rw [hstep, hfst, hcache]

/-- C1 witness: a concrete engine with a cached count 2 for "a" keeps
returning 2 after re-initialization with the empty corpus. -/
theorem C1_cache_survives_reinit_witness :
    ∃ s', setData ⟨[("a", 2)], none⟩ (.arr .nil) = .ok s'
      ∧ s'.cache = [("a", 2)]
      ∧ process s' ["a"] = .ok ([⟨"a", 2⟩], s') :=
  C1_cache_survives_reinit ⟨[("a", 2)], none⟩ .nil "a" 2 (by decide)

/-- C3 counterexample: with the empty corpus, the count 0 computed for
"a" is written to the cache, yet on the next `count(["a"])` call — a
warm cache — the truthy test at line 46 treats the cached 0 as a miss:
"a" lands in `tagsToProcess` again and the corpus traversal loop runs
for it once more. -/
theorem C3_counterexample :
    List.lookup "a" (processData [] [] ["a"]).2.1 = some 0
    ∧ (processData (processData [] [] ["a"]).2.1 [] ["a"]).2.2 = ["a"] :=
  ⟨rfl, rfl⟩

/-- C3 (amended): every newly computed count is cached, including 0;
a repeated call reports the same count for every tag; but only tags
with a truthy (non-zero) cached count skip the corpus traversal — a tag
cached with count 0 is put back into `tagsToProcess`, so the corpus is
traversed again for it. -/
theorem C3_cache_and_retraversal (cache : Counts) (C : List JSVal) (T : List String)
    (hnd : T.Nodup) :
    (∀ t ∈ T, cacheHit cache t = none →
        List.lookup t (processData cache C T).2.1 = some (tagCorpusCount C t))
    ∧ (∀ t ∈ T, resCount (processData (processData cache C T).2.1 C T).1 t
        = resCount (processData cache C T).1 t)
    ∧ (∀ t ∈ T, t ∈ (processData (processData cache C T).2.1 C T).2.2
        ↔ List.lookup t (processData cache C T).2.1 = some 0) := by
  refine ⟨?_, ?_, ?_⟩
  · intro t ht hm
    rw [lookup_processData_cache cache C T t hnd ht, hm]
  · intro t ht
    rw [resCount_processData (processData cache C T).2.1 C T t hnd ht,
      resCount_processData cache C T t hnd ht]
    have h1 := lookup_processData_cache cache C T t hnd ht
    cases hm : cacheHit cache t with
    | some c =>
      rw [hm] at h1
      obtain ⟨_, hz⟩ := cacheHit_spec cache t c hm
      have h2 : cacheHit (processData cache C T).2.1 t = some c := by
        simp [cacheHit, h1, hz]
      rw [h2]
    | none =>
      rw [hm] at h1
      by_cases hz : tagCorpusCount C t = 0
      · have h2 : cacheHit (processData cache C T).2.1 t = none := by
          simp [cacheHit, h1, hz]
        rw [h2, hz]
      · have h2 : cacheHit (processData cache C T).2.1 t
            = some (tagCorpusCount C t) := by
          simp [cacheHit, h1, hz]
        rw [h2]
  · intro t ht
    rw [processData_ttp, mem_ttp_iff _ T t ht]
    have h1 := lookup_processData_cache cache C T t hnd ht
    cases hm : cacheHit cache t with
    | some c =>
      rw [hm] at h1
      obtain ⟨_, hz⟩ := cacheHit_spec cache t c hm
      constructor
      · intro h2
        have h3 : cacheHit (processData cache C T).2.1 t = some c := by
          simp [cacheHit, h1, hz]
        rw [h3] at h2
        cases h2
      · intro h2
        rw [h1] at h2
        exact absurd (Option.some.inj h2) hz
    | none =>
      rw [hm] at h1
      by_cases hz : tagCorpusCount C t = 0
      · rw [h1, hz]
        constructor
        · intro _; rfl
        · intro _
          simp [cacheHit, h1, hz]
      · constructor
        · intro h2
          have h3 : cacheHit (processData cache C T).2.1 t
              = some (tagCorpusCount C t) := by
            simp [cacheHit, h1, hz]
          rw [h3] at h2
          cases h2
        · intro h2
          rw [h1] at h2
          exact absurd (Option.some.inj h2) hz

/-- C3 witness: a concrete instance of the amended statement. -/
theorem C3_cache_and_retraversal_witness :
    (∀ t ∈ ["a"], cacheHit [] t = none →
        List.lookup t (processData [] [] ["a"]).2.1 = some (tagCorpusCount [] t))
    ∧ (∀ t ∈ ["a"], resCount (processData (processData [] [] ["a"]).2.1 [] ["a"]).1 t
        = resCount (processData [] [] ["a"]).1 t)
    ∧ (∀ t ∈ ["a"], t ∈ (processData (processData [] [] ["a"]).2.1 [] ["a"]).2.2
        ↔ List.lookup t (processData [] [] ["a"]).2.1 = some 0) :=
  C3_cache_and_retraversal [] [] ["a"] (by decide)

/-- Is a sequence of counts non-increasing (sorted by count
descending)? -/
def nonIncreasing : List Nat → Bool
  | [] => true
  | [_] => true
  | a :: b :: rest => (b ≤ a) && nonIncreasing (b :: rest)

/-- The document whose three leaves give the tags "a", "b", "c" the
three distinct counts 1, 2, 3. -/
def sortDoc : JSVal :=
  .obj (.fcons "x" (.str "c") (.fcons "y" (.str "bc") (.fcons "z" (.str "abc") .nil)))

/-- C4: the comparator at line 65 returns a boolean, which `ToNumber`
turns into 0 or 1 — never a negative number — so V8's TimSort never
moves an element: the result stays in the order it was built instead of
being sorted by count descending.  On the corpus `[sortDoc]` the tag set
["a", "b", "c"] produces the three distinct counts 1, 2, 3 in that
(ascending!) order, which is not non-increasing — against both the claim
and the code's own "cache and sort results" comment. -/
theorem C4_sort_never_reorders :
    ((processData [] [sortDoc] ["a", "b", "c"]).1.map QueryResult.count) = [1, 2, 3]
    ∧ nonIncreasing ((processData [] [sortDoc] ["a", "b", "c"]).1.map QueryResult.count)
        = false := by
  constructor
  · decide
  · decide

/-- C2 counterexample: a one-file load cycle in which the deadline timer
fires before the file completes.  The loader emits Fatal, and then —
because the `fileprocessed` handler never checks whether Fatal already
fired — it records the late-arriving document and emits Ready carrying
it: the late result is not discarded and Ready is emitted in the same
cycle. -/
theorem C2_counterexample :
    (dlRun (dlInit 1) [DLEvent.timeout, DLEvent.fileDone true JSVal.null]).2
      = [DLEmit.fatal, DLEmit.ready [JSVal.null]] := rfl

/-- C2 (amended): when the deadline fires before the completion counter
reaches the total, Fatal is emitted exactly once — but every task result
arriving after the deadline is still recorded, and once the counter
reaches the total, Ready is still emitted, carrying all successes of the
cycle including the post-deadline ones.  (In the application the Fatal
handler exits the process, which is the only thing that keeps the late
Ready from being observed.) -/
theorem C2_fatal_once_ready_still_fires (n : Nat) (fds₁ fds₂ : List DLEvent)
    (h₁ : ∀ e ∈ fds₁, isFileDone e = true) (h₂ : ∀ e ∈ fds₂, isFileDone e = true)
    (hlt : fds₁.length < n) (hsum : fds₁.length + fds₂.length = n) :
    (dlRun (dlInit n) (fds₁ ++ DLEvent.timeout :: fds₂)).2
      = [DLEmit.fatal, DLEmit.ready (successes fds₁ ++ successes fds₂)] := by
  have hne2 : fds₂ ≠ [] := by
    intro hc
    rw [hc] at hsum
    simp at hsum
    omega
  rw [dlRun_append, dlRun_partial (dlInit n) fds₁ h₁ (by simpa [dlInit] using hlt),
    dlRun_timeout_cons, dlRun_completing _ fds₂ h₂ hne2 (by simp [dlInit]; omega)]
  simp [dlInit]

/-- C2 witness: the amended statement at the one-file cycle of the
counterexample. -/
theorem C2_fatal_once_ready_still_fires_witness :
    (dlRun (dlInit 1) ([] ++ DLEvent.timeout :: [DLEvent.fileDone true JSVal.null])).2
      = [DLEmit.fatal,
         DLEmit.ready (successes [] ++ successes [DLEvent.fileDone true JSVal.null])] :=
  C2_fatal_once_ready_still_fires 1 [] [DLEvent.fileDone true JSVal.null]
    (by simp) (by simp [isFileDone]) (by simp) (by simp)

/-- C9: a load cycle of n > 0 files whose tasks all complete emits Ready
exactly once with the successfully parsed documents; afterwards the
cache is marked ready and holds that same corpus, and a renewed
`loadFiles` call takes the early-return branch — re-emitting Ready with
the very corpus the first Ready delivered, without reaching
`fs.readdir`. -/
theorem C9_load_idempotent (n : Nat) (evs : List DLEvent)
    (hall : ∀ e ∈ evs, isFileDone e = true) (hne : evs ≠ [])
    (hlen : evs.length = n) :
    (dlRun (dlInit n) evs).2 = [DLEmit.ready (successes evs)]
    ∧ (dlRun (dlInit n) evs).1.cacheReady = true
    ∧ (dlRun (dlInit n) evs).1.cache = successes evs
    ∧ loadFilesStep (dlRun (dlInit n) evs).1
        = .cachedReturn [DLEmit.ready (successes evs)] := by
  rw [dlRun_completing (dlInit n) evs hall hne (by simp [dlInit, hlen])]
  simp [dlInit, loadFilesStep]

/-- C9 witness: a one-file cycle. -/
theorem C9_load_idempotent_witness :
    (dlRun (dlInit 1) [DLEvent.fileDone true JSVal.null]).2
        = [DLEmit.ready (successes [DLEvent.fileDone true JSVal.null])]
    ∧ (dlRun (dlInit 1) [DLEvent.fileDone true JSVal.null]).1.cacheReady = true
    ∧ (dlRun (dlInit 1) [DLEvent.fileDone true JSVal.null]).1.cache
        = successes [DLEvent.fileDone true JSVal.null]
    ∧ loadFilesStep (dlRun (dlInit 1) [DLEvent.fileDone true JSVal.null]).1
        = .cachedReturn [DLEmit.ready (successes [DLEvent.fileDone true JSVal.null])] :=
  C9_load_idempotent 1 [DLEvent.fileDone true JSVal.null]
    (by simp [isFileDone]) (by simp) (by simp)
